import Mathlib

/-!
Verification of the weighted posterior summarizer of
`TEIVR_Results/particle-filter-example-tiv_covid/plot_posterior.py`.

The script's numeric arrays are embedded as `List ℚ` (exact arithmetic in
place of float64).  Each definition mirrors the corresponding numpy
expression of the source:

* `npSum` — `ndarray.sum()` as a left fold;
* `sortPairs` — `sorted_idx = np.argsort(param_values)` followed by
  `param_values[sorted_idx]` / `weights[sorted_idx]`: sorting value/weight
  pairs by value (the quantile values returned are invariant under the
  ordering of ties, so a stable insertion sort models argsort faithfully);
* `cumsum` — `np.cumsum(sorted_weights)`;
* `searchsorted` — `np.searchsorted(cumsum, q)` with the default
  `side='left'` contract (smallest index whose element is ≥ the probe;
  numpy documents this contract for sorted input, which is what the script
  passes); indexing the result into an array is fallible, so
  `computeWeightedQuantile` returns an `Option` (a `none` models numpy's
  IndexError on an out-of-range position);
* `computeWeightedMean` — `np.average(param_values, weights=weights)`
  (line 75), i.e. `(a * w).sum() / w.sum()`;
* `computeWeightedVariance` — line 78,
  `np.average((param_values - mean_val)**2, weights=weights)`;
* `normalizeWeights` — line 46, `weights / weights.sum()` (elementwise);
* `selectTimeSlice` — line 37, `snapshot_table[snapshot_table['time'] == t]`;
* `lookupCovariance` / `covarianceReport` — lines 154-161: the symmetric
  mask over `(param1, param2)`, `final_covar[mask]['covar'][0]` on a hit,
  and the printing loop that emits one line per matched pair.
-/

namespace PlotPosterior

/-- `ndarray.sum()` on a rational array. -/
def npSum (l : List ℚ) : ℚ := l.foldl (· + ·) 0

/-- One row of the snapshot table: a time stamp, a particle weight, and the
per-parameter value columns. -/
structure ParticleRecord where
  time : ℚ
  weight : ℚ
  values : String → ℚ

/-- One row of the covariance table `est.tables['covariencetable']`. -/
structure CovarianceEntry where
  time : ℚ
  param1 : String
  param2 : String
  covar : ℚ

/-- Line 37: `particles = snapshot_table[snapshot_table['time'] == final_time]`. -/
def selectTimeSlice (table : List ParticleRecord) (t : ℚ) : List ParticleRecord :=
  table.filter (fun r => decide (r.time = t))

/-- Line 46: `weights = weights / weights.sum()` (elementwise division; the
source performs the division unconditionally, with no zero-sum check). -/
def normalizeWeights (weights : List ℚ) : List ℚ :=
  weights.map (fun w => w / npSum weights)

/-- Line 75: `np.average(param_values, weights=weights)`, which numpy
computes as `(a * wgt).sum() / wgt.sum()`. -/
def computeWeightedMean (values weights : List ℚ) : ℚ :=
  npSum (List.zipWith (fun v w => v * w) values weights) / npSum weights

/-- Line 78: `variance = np.average((param_values - mean_val)**2,
weights=weights)`. -/
def computeWeightedVariance (values weights : List ℚ) (mean : ℚ) : ℚ :=
  computeWeightedMean (values.map (fun v => (v - mean) ^ 2)) weights

/-- The value ordering on (value, weight) pairs used by the argsort. -/
def pairLe (a b : ℚ × ℚ) : Prop := a.1 ≤ b.1

instance : DecidableRel pairLe := fun a b => inferInstanceAs (Decidable (a.1 ≤ b.1))

instance : IsTotal (ℚ × ℚ) pairLe := ⟨fun a b => le_total a.1 b.1⟩

instance : IsTrans (ℚ × ℚ) pairLe := ⟨fun _ _ _ => le_trans⟩

/-- Lines 82-84: `sorted_idx = np.argsort(param_values)`;
`sorted_vals = param_values[sorted_idx]`;
`sorted_weights = weights[sorted_idx]` — the value/weight pairs sorted
ascending by value, weights carried along in the same permutation. -/
def sortPairs (l : List (ℚ × ℚ)) : List (ℚ × ℚ) :=
  List.insertionSort pairLe l

/-- `sorted_vals` of lines 82-83. -/
def sorted_vals (values weights : List ℚ) : List ℚ :=
  (sortPairs (values.zip weights)).map Prod.fst

/-- `sorted_weights` of line 84. -/
def sorted_weights (values weights : List ℚ) : List ℚ :=
  (sortPairs (values.zip weights)).map Prod.snd

/-- Line 85: `cumsum = np.cumsum(sorted_weights)`. -/
def cumsum : List ℚ → List ℚ
  | [] => []
  | w :: ws => w :: (cumsum ws).map (fun c => w + c)

/-- `np.searchsorted(a, v)` with the default `side='left'`: the smallest
index `i` with `v ≤ a[i]`, or `a.length` when there is none (numpy's
documented behavior on a sorted `a`, which is what the script supplies). -/
def searchsorted (a : List ℚ) (v : ℚ) : ℕ :=
  match a with
  | [] => 0
  | x :: xs => if v ≤ x then 0 else searchsorted xs v + 1

/-- Lines 82-92: the weighted quantile — sort values carrying weights,
take the cumulative weight sum, and index the sorted values at
`searchsorted cumsum q`.  The indexing is fallible (`none` models the
IndexError numpy raises when `searchsorted` returns the array length). -/
def computeWeightedQuantile (values weights : List ℚ) (q : ℚ) : Option ℚ :=
  (sorted_vals values weights)[searchsorted (cumsum (sorted_weights values weights)) q]?

/-- Lines 156-159: filter the covariance rows at time `t`, build the
symmetric mask over the parameter pair, and on a hit take `['covar'][0]`,
the first matching row. -/
def lookupCovariance (table : List CovarianceEntry) (t : ℚ) (pA pB : String) :
    Option ℚ :=
  let finalCovar := table.filter (fun e => decide (e.time = t))
  let hits := finalCovar.filter (fun e =>
    decide ((e.param1 = pA ∧ e.param2 = pB) ∨ (e.param1 = pB ∧ e.param2 = pA)))
  hits.head?.map CovarianceEntry.covar

/-- Lines 154-161: the report loop — for each ordered position `i` and each
later parameter `p2`, print a line exactly when the covariance lookup hits;
a missed lookup contributes nothing. -/
def covarianceReport (table : List CovarianceEntry) (t : ℚ) :
    List String → List (String × String × ℚ)
  | [] => []
  | p1 :: rest =>
      rest.filterMap (fun p2 =>
        (lookupCovariance table t p1 p2).map (fun c => (p1, p2, c)))
        ++ covarianceReport table t rest

/-! ### Helper lemmas about the embedded operations -/

theorem npSum_eq_sum (l : List ℚ) : npSum l = l.sum := by
  have key : ∀ (l : List ℚ) (a : ℚ), l.foldl (· + ·) a = a + l.sum := by
    intro l
    induction l with
    | nil => intro a; simp
    | cons x xs ih => intro a; simp [List.sum_cons, ih, add_assoc]
  simpa using key l 0

theorem cumsum_length (l : List ℚ) : (cumsum l).length = l.length := by
  induction l with
  | nil => rfl
  | cons w ws ih => simp [cumsum, ih]

theorem cumsum_getElem (l : List ℚ) (i : ℕ) (h : i < l.length) :
    (cumsum l)[i]? = some ((l.take (i + 1)).sum) := by
  induction l generalizing i with
  | nil => simp at h
  | cons w ws ih =>
    cases i with
    | zero => simp [cumsum]
    | succ j =>
      have hj : j < ws.length := by simpa using h
      simp [cumsum, List.getElem?_cons_succ, List.getElem?_map, ih j hj, List.sum_cons]

theorem searchsorted_le_length (a : List ℚ) (v : ℚ) : searchsorted a v ≤ a.length := by
  induction a with
  | nil => simp [searchsorted]
  | cons x xs ih =>
    simp only [searchsorted, List.length_cons]
    split
    · omega
    · omega

theorem searchsorted_ge (a : List ℚ) (v : ℚ) {ci : ℚ}
    (h : a[searchsorted a v]? = some ci) : v ≤ ci := by
  induction a with
  | nil => simp [searchsorted] at h
  | cons x xs ih =>
    by_cases hv : v ≤ x
    · simp only [searchsorted, if_pos hv, List.getElem?_cons_zero, Option.some_inj] at h
      exact h ▸ hv
    · simp only [searchsorted, if_neg hv, List.getElem?_cons_succ] at h
      exact ih h

theorem searchsorted_before_lt (a : List ℚ) (v : ℚ) : ∀ {j : ℕ}, j < searchsorted a v →
    ∀ {cj : ℚ}, a[j]? = some cj → cj < v := by
  induction a with
  | nil => intro j hj; simp [searchsorted] at hj
  | cons x xs ih =>
    intro j hj cj h
    by_cases hv : v ≤ x
    · simp [searchsorted, if_pos hv] at hj
    · rw [searchsorted, if_neg hv] at hj
      cases j with
      | zero =>
        simp only [List.getElem?_cons_zero, Option.some_inj] at h
        exact h ▸ lt_of_not_le hv
      | succ j' =>
        simp only [List.getElem?_cons_succ] at h
        exact ih (by omega) h

theorem searchsorted_mono (a : List ℚ) {v1 v2 : ℚ} (h : v1 ≤ v2) :
    searchsorted a v1 ≤ searchsorted a v2 := by
  induction a with
  | nil => simp [searchsorted]
  | cons x xs ih =>
    by_cases h2 : v2 ≤ x
    · have h1 : v1 ≤ x := le_trans h h2
      simp [searchsorted, h1, h2]
    · by_cases h1 : v1 ≤ x
      · simp only [searchsorted, if_pos h1, if_neg h2]
        omega
      · simp only [searchsorted, if_neg h1, if_neg h2]
        omega

theorem searchsorted_eq_length (a : List ℚ) (v : ℚ) (h : ∀ x ∈ a, x < v) :
    searchsorted a v = a.length := by
  induction a with
  | nil => rfl
  | cons x xs ih =>
    have hx : ¬ v ≤ x := not_le.mpr (h x (by simp))
    simp [searchsorted, hx, ih (fun y hy => h y (by simp [hy]))]

theorem searchsorted_le_of_ge (a : List ℚ) (v : ℚ) {i : ℕ} {ci : ℚ}
    (h : a[i]? = some ci) (hv : v ≤ ci) : searchsorted a v ≤ i := by
  by_contra hlt
  push_neg at hlt
  exact absurd hv (not_le.mpr (searchsorted_before_lt a v hlt h))

theorem le_searchsorted (a : List ℚ) (v : ℚ) {k : ℕ} (hk : k ≤ a.length)
    (h : ∀ j, j < k → ∀ cj, a[j]? = some cj → cj < v) : k ≤ searchsorted a v := by
  by_contra hlt
  push_neg at hlt
  have hrange : searchsorted a v < a.length := lt_of_lt_of_le hlt hk
  have hsome := List.getElem?_eq_getElem hrange
  exact absurd (searchsorted_ge a v hsome)
    (not_le.mpr (h _ hlt _ hsome))

theorem sortPairs_perm (l : List (ℚ × ℚ)) : List.Perm (sortPairs l) l :=
  List.perm_insertionSort pairLe l

theorem sortPairs_sorted (l : List (ℚ × ℚ)) : List.Sorted pairLe (sortPairs l) :=
  List.sorted_insertionSort pairLe l

theorem sorted_vals_sorted (values weights : List ℚ) :
    List.Sorted (· ≤ ·) (sorted_vals values weights) :=
  List.Pairwise.map Prod.fst (fun _ _ hab => hab) (sortPairs_sorted (values.zip weights))

theorem sorted_vals_perm (values weights : List ℚ) (hlen : values.length = weights.length) :
    List.Perm (sorted_vals values weights) values := by
  have h1 : List.Perm (sorted_vals values weights) ((values.zip weights).map Prod.fst) :=
    (sortPairs_perm (values.zip weights)).map Prod.fst
  rwa [List.map_fst_zip values weights (le_of_eq hlen)] at h1

theorem sorted_weights_perm (values weights : List ℚ) (hlen : values.length = weights.length) :
    List.Perm (sorted_weights values weights) weights := by
  have h1 : List.Perm (sorted_weights values weights) ((values.zip weights).map Prod.snd) :=
    (sortPairs_perm (values.zip weights)).map Prod.snd
  rwa [List.map_snd_zip values weights (ge_of_eq hlen)] at h1

theorem sorted_vals_length_eq (values weights : List ℚ) :
    (sorted_vals values weights).length = (sorted_weights values weights).length := by
  simp [sorted_vals, sorted_weights]

theorem exists_list_min (l : List ℚ) (h : l ≠ []) : ∃ a ∈ l, ∀ x ∈ l, a ≤ x := by
  induction l with
  | nil => exact absurd rfl h
  | cons x xs ih =>
    rcases eq_or_ne xs [] with rfl | hxs
    · exact ⟨x, by simp, by simp⟩
    · obtain ⟨a, ha, hmin⟩ := ih hxs
      rcases le_total x a with hxa | hax
      · refine ⟨x, by simp, ?_⟩
        intro y hy
        rcases List.mem_cons.mp hy with rfl | hy
        · exact le_refl y
        · exact le_trans hxa (hmin y hy)
      · refine ⟨a, by simp [ha], ?_⟩
        intro y hy
        rcases List.mem_cons.mp hy with rfl | hy
        · exact hax
        · exact hmin y hy

theorem exists_list_max (l : List ℚ) (h : l ≠ []) : ∃ a ∈ l, ∀ x ∈ l, x ≤ a := by
  obtain ⟨a, ha, hmin⟩ := exists_list_min (l.map Neg.neg) (by simpa using h)
  obtain ⟨b, hb, rfl⟩ := List.mem_map.mp ha
  refine ⟨b, hb, ?_⟩
  intro x hx
  have := hmin (-x) (List.mem_map.mpr ⟨x, hx, rfl⟩)
  linarith

theorem sum_zipWith_le (M : ℚ) : ∀ (values weights : List ℚ),
    values.length = weights.length → (∀ x ∈ values, x ≤ M) → (∀ w ∈ weights, 0 ≤ w) →
    (List.zipWith (fun v w => v * w) values weights).sum ≤ M * weights.sum
  | [], [], _, _, _ => by simp
  | [], _ :: _, hlen, _, _ => by simp at hlen
  | _ :: _, [], hlen, _, _ => by simp at hlen
  | v :: vs, w :: ws, hlen, hv, hw => by
    have ih := sum_zipWith_le M vs ws (by simpa using hlen)
      (fun x hx => hv x (by simp [hx])) (fun x hx => hw x (by simp [hx]))
    have h1 : v * w ≤ M * w :=
      mul_le_mul_of_nonneg_right (hv v (by simp)) (hw w (by simp))
    simp only [List.zipWith_cons_cons, List.sum_cons]
    linarith

theorem le_sum_zipWith (m : ℚ) : ∀ (values weights : List ℚ),
    values.length = weights.length → (∀ x ∈ values, m ≤ x) → (∀ w ∈ weights, 0 ≤ w) →
    m * weights.sum ≤ (List.zipWith (fun v w => v * w) values weights).sum
  | [], [], _, _, _ => by simp
  | [], _ :: _, hlen, _, _ => by simp at hlen
  | _ :: _, [], hlen, _, _ => by simp at hlen
  | v :: vs, w :: ws, hlen, hv, hw => by
    have ih := le_sum_zipWith m vs ws (by simpa using hlen)
      (fun x hx => hv x (by simp [hx])) (fun x hx => hw x (by simp [hx]))
    have h1 : m * w ≤ v * w :=
      mul_le_mul_of_nonneg_right (hv v (by simp)) (hw w (by simp))
    simp only [List.zipWith_cons_cons, List.sum_cons]
    linarith

theorem sum_zipWith_sq_nonneg (m : ℚ) : ∀ (values weights : List ℚ),
    (∀ w ∈ weights, 0 ≤ w) →
    0 ≤ (List.zipWith (fun v w => w * (v - m) ^ 2) values weights).sum
  | [], _, _ => by simp
  | _ :: _, [], _ => by simp
  | v :: vs, w :: ws, hw => by
    have ih := sum_zipWith_sq_nonneg m vs ws (fun x hx => hw x (by simp [hx]))
    have h1 : 0 ≤ w * (v - m) ^ 2 :=
      mul_nonneg (hw w (by simp)) (sq_nonneg _)
    simp only [List.zipWith_cons_cons, List.sum_cons]
    linarith

theorem take_sum_le_sum (l : List ℚ) (k : ℕ) (h : ∀ w ∈ l, 0 ≤ w) :
    (l.take k).sum ≤ l.sum := by
  have hsplit : (l.take k).sum + (l.drop k).sum = l.sum := by
    rw [← List.sum_append, List.take_append_drop]
  have hdrop : 0 ≤ (l.drop k).sum :=
    List.sum_nonneg (fun x hx => h x (List.mem_of_mem_drop hx))
  linarith

theorem take_sum_lt_sum (l : List ℚ) (k : ℕ) (hk : k < l.length)
    (h : ∀ w ∈ l, 0 < w) : (l.take k).sum < l.sum := by
  have hsplit : (l.take k).sum + (l.drop k).sum = l.sum := by
    rw [← List.sum_append, List.take_append_drop]
  have hne : l.drop k ≠ [] := by
    intro hnil
    have := List.length_drop k l
    rw [hnil] at this
    simp at this
    omega
  have hdrop : 0 < (l.drop k).sum :=
    List.sum_pos _ (fun x hx => h x (List.mem_of_mem_drop hx)) hne
  linarith

theorem covarianceReport_mem {table : List CovarianceEntry} {t : ℚ}
    {p1 p2 : String} {c : ℚ} : ∀ {params : List String},
    (p1, p2, c) ∈ covarianceReport table t params →
    lookupCovariance table t p1 p2 = some c := by
  intro params
  induction params with
  | nil => intro h; simp [covarianceReport] at h
  | cons p rest ih =>
    intro h
    rcases List.mem_append.mp h with h | h
    · obtain ⟨p2', hp2', hmap⟩ := List.mem_filterMap.mp h
      cases hl : lookupCovariance table t p p2' with
      | none => rw [hl] at hmap; simp at hmap
      | some c' =>
        rw [hl] at hmap
        have hegs : p = p1 ∧ p2' = p2 ∧ c' = c := by
          simpa [Prod.ext_iff] using hmap
        obtain ⟨rfl, rfl, rfl⟩ := hegs
        exact hl
    · exact ih h

/-! ### Claim theorems -/

/-- C6: lookupCovariance treats the parameter pair as unordered — for every
covariance table, timestamp and parameter pair,
`lookupCovariance table t pA pB = lookupCovariance table t pB pA` (proved
unconditionally, so in particular when only one of the two orderings of the
pair is stored). -/
theorem lookupCovariance_symm (table : List CovarianceEntry) (t : ℚ) (pA pB : String) :
    lookupCovariance table t pA pB = lookupCovariance table t pB pA := by
  have h : (table.filter (fun e => decide (e.time = t))).filter (fun e =>
        decide ((e.param1 = pA ∧ e.param2 = pB) ∨ (e.param1 = pB ∧ e.param2 = pA)))
      = (table.filter (fun e => decide (e.time = t))).filter (fun e =>
        decide ((e.param1 = pB ∧ e.param2 = pA) ∨ (e.param1 = pA ∧ e.param2 = pB))) := by
    apply List.filter_congr
    intro e _
    simp only [decide_eq_decide]
    tauto
  simp only [lookupCovariance]
  rw [h]

/-- C8: for every snapshot table and every timestamp absent from the table,
selectTimeSlice returns the empty slice (the script's boolean-mask filter
matches no record), which is the explicit empty-time-slice outcome the
caller observes. -/
theorem selectTimeSlice_absent_empty (table : List ParticleRecord) (t : ℚ)
    (h : ∀ r ∈ table, r.time ≠ t) : selectTimeSlice table t = [] := by
  simp only [selectTimeSlice, List.filter_eq_nil_iff]
  intro r hr
  simp [h r hr]

/-- C8 witness: a one-record table at time 0 queried at the absent time 5
yields the empty slice. -/
theorem selectTimeSlice_absent_empty_witness :
    selectTimeSlice [⟨0, 1, fun _ => 0⟩] 5 = [] :=
  selectTimeSlice_absent_empty [⟨0, 1, fun _ => 0⟩] 5 (by
    intro r hr
    simp only [List.mem_singleton] at hr
    subst hr
    norm_num)

/-- C9: for every covariance table, timestamp and parameter pair with no
matching entry, lookupCovariance returns the not-found signal `none`, and
the report loop (`if np.any(mask)`) handles it as a normal branch: the pair
is omitted from the printed output and no failure occurs. -/
theorem lookupCovariance_missing_handled (table : List CovarianceEntry) (t : ℚ)
    (pA pB : String)
    (h : ∀ e ∈ table, e.time = t →
      ¬((e.param1 = pA ∧ e.param2 = pB) ∨ (e.param1 = pB ∧ e.param2 = pA))) :
    lookupCovariance table t pA pB = none ∧
    ∀ params c, (pA, pB, c) ∉ covarianceReport table t params := by
  have hnone : lookupCovariance table t pA pB = none := by
    have hfilter : (table.filter (fun e => decide (e.time = t))).filter (fun e =>
        decide ((e.param1 = pA ∧ e.param2 = pB) ∨ (e.param1 = pB ∧ e.param2 = pA))) = [] := by
      rw [List.filter_eq_nil_iff]
      intro e he
      obtain ⟨hmem, ht⟩ := List.mem_filter.mp he
      simp only [decide_eq_true_eq] at ht
      simpa using h e hmem ht
    simp only [lookupCovariance]
    rw [hfilter]
    rfl
  refine ⟨hnone, ?_⟩
  intro params c hmem
  have := covarianceReport_mem hmem
  rw [hnone] at this
  exact Option.noConfusion this

/-- C9 witness: with a table holding only an ("a","b") entry at time 0, the
lookup of the absent pair ("x","y") is `none` and the pair is omitted from
the report over parameters ["x","y"]. -/
theorem lookupCovariance_missing_handled_witness :
    lookupCovariance [⟨0, "a", "b", 5⟩] 0 "x" "y" = none ∧
    ("x", "y", (7 : ℚ)) ∉ covarianceReport [⟨0, "a", "b", 5⟩] 0 ["x", "y"] := by
  have h := lookupCovariance_missing_handled [⟨0, "a", "b", 5⟩] 0 "x" "y" (by
    intro e he ht
    simp only [List.mem_singleton] at he
    subst he
    simp)
  exact ⟨h.1, h.2 ["x", "y"] 7⟩

/-- C4 counterexample: on values [1,2,3] with weights [0.2, 0.3, 0.5] the
code returns 0.2·1 + 0.3·2 + 0.5·3 = 2.3, not the 2.2 stated by the
claim. -/
theorem computeWeightedMean_instance_cex :
    computeWeightedMean [1, 2, 3] [0.2, 0.3, 0.5] ≠ 2.2 := by
  norm_num [computeWeightedMean, npSum]

/-- C4 (amended): computeWeightedMean is the standard weighted average
`sum(value_i * weight_i) / sum(weight_i)`; in particular, for values
[1,2,3] with weights [0.2, 0.3, 0.5] it returns 2.3. -/
theorem computeWeightedMean_spec :
    (∀ values weights : List ℚ, computeWeightedMean values weights
      = (List.zipWith (fun v w => v * w) values weights).sum / weights.sum) ∧
    computeWeightedMean [1, 2, 3] [0.2, 0.3, 0.5] = 2.3 := by
  constructor
  · intro values weights
    simp [computeWeightedMean, npSum_eq_sum]
  · norm_num [computeWeightedMean, npSum]

/-- C3 counterexample: on an all-zero weight slice the code performs the
division anyway and silently yields a defaulted result (0/0 per entry:
NaN in the float script, 0 in this exact model) whose sum is 0, instead of
signaling an InvalidWeights failure. -/
theorem normalizeWeights_zero_cex :
    normalizeWeights [0, 0, 0] = [0, 0, 0] ∧ npSum (normalizeWeights [0, 0, 0]) = 0 := by
  constructor
  · norm_num [normalizeWeights, npSum]
  · norm_num [normalizeWeights, npSum]

/-- C3 (amended): for every slice whose weights are all zero,
normalizeWeights signals no error — the division by the zero sum is
performed unconditionally and the caller receives a silently defaulted
invalid array (every entry 0/0; its sum is 0, not 1). -/
theorem normalizeWeights_zero_silent (weights : List ℚ) (h : ∀ w ∈ weights, w = 0) :
    normalizeWeights weights = List.replicate weights.length 0 ∧
    npSum (normalizeWeights weights) = 0 := by
  have hmap : normalizeWeights weights = List.replicate weights.length 0 := by
    rw [normalizeWeights, List.eq_replicate_iff]
    refine ⟨by simp, ?_⟩
    intro b hb
    obtain ⟨w, hw, rfl⟩ := List.mem_map.mp hb
    rw [h w hw]
    simp
  refine ⟨hmap, ?_⟩
  rw [hmap, npSum_eq_sum]
  simp

/-- C3 witness: the all-zero slice [0, 0] is mapped to [0, 0] with sum 0. -/
theorem normalizeWeights_zero_silent_witness :
    normalizeWeights [0, 0] = List.replicate (List.length [(0 : ℚ), 0]) 0 ∧
    npSum (normalizeWeights [0, 0]) = 0 :=
  normalizeWeights_zero_silent [0, 0] (by
    intro w hw
    rcases List.mem_cons.mp hw with rfl | hw
    · rfl
    · simpa using hw)

/-- C10: for every non-empty values list with non-negative weights of
positive sum, computeWeightedMean lies between the minimum and the maximum
of the input values (inclusive). -/
theorem computeWeightedMean_between_min_max (values weights : List ℚ)
    (hne : values ≠ []) (hlen : values.length = weights.length)
    (hw : ∀ w ∈ weights, 0 ≤ w) (hpos : 0 < npSum weights) :
    ∃ vmin ∈ values, ∃ vmax ∈ values,
      (∀ x ∈ values, vmin ≤ x ∧ x ≤ vmax) ∧
      vmin ≤ computeWeightedMean values weights ∧
      computeWeightedMean values weights ≤ vmax := by
  obtain ⟨vmin, hminmem, hmin⟩ := exists_list_min values hne
  obtain ⟨vmax, hmaxmem, hmax⟩ := exists_list_max values hne
  have hpos' : 0 < weights.sum := by rwa [npSum_eq_sum] at hpos
  have hupper := sum_zipWith_le vmax values weights hlen hmax hw
  have hlower := le_sum_zipWith vmin values weights hlen hmin hw
  have hmean : computeWeightedMean values weights
      = (List.zipWith (fun v w => v * w) values weights).sum / weights.sum := by
    simp [computeWeightedMean, npSum_eq_sum]
  refine ⟨vmin, hminmem, vmax, hmaxmem, fun x hx => ⟨hmin x hx, hmax x hx⟩, ?_, ?_⟩
  · rw [hmean, le_div_iff₀ hpos']
    exact hlower
  · rw [hmean, div_le_iff₀ hpos']
    exact hupper

/-- C10 witness: on values [1, 2] with weights [1, 1] the weighted mean is
bracketed by a minimum and a maximum taken in the list. -/
theorem computeWeightedMean_between_min_max_witness :
    ∃ vmin ∈ ([1, 2] : List ℚ), ∃ vmax ∈ ([1, 2] : List ℚ),
      (∀ x ∈ ([1, 2] : List ℚ), vmin ≤ x ∧ x ≤ vmax) ∧
      vmin ≤ computeWeightedMean [1, 2] [1, 1] ∧
      computeWeightedMean [1, 2] [1, 1] ≤ vmax :=
  computeWeightedMean_between_min_max [1, 2] [1, 1] (by simp) (by simp)
    (by
      intro w hw
      rcases List.mem_cons.mp hw with rfl | hw
      · norm_num
      · simp only [List.mem_singleton] at hw
        subst hw
        norm_num)
    (by norm_num [npSum])

/-- C1: computeWeightedQuantile follows the source algorithm — the
value/weight pairs are sorted ascending by value (a permutation of the
input pairs carrying the weights along), the cumulative array holds the
prefix sums of the sorted weights, and any returned value sits at the
first index whose cumulative weight meets or exceeds q (no interpolation);
in particular on the uniformly weighted, already sorted [1,2,3,4,5] with
q = 1/2 it returns 3. -/
theorem computeWeightedQuantile_follows_algorithm :
    (∀ (values weights : List ℚ) (q : ℚ),
      List.Perm (sortPairs (values.zip weights)) (values.zip weights) ∧
      List.Sorted pairLe (sortPairs (values.zip weights)) ∧
      (∀ i, i < (sorted_weights values weights).length →
        (cumsum (sorted_weights values weights))[i]?
          = some (((sorted_weights values weights).take (i + 1)).sum)) ∧
      (∀ v, computeWeightedQuantile values weights q = some v →
        ∃ i : ℕ, (sorted_vals values weights)[i]? = some v ∧
          (∃ ci, (cumsum (sorted_weights values weights))[i]? = some ci ∧ q ≤ ci) ∧
          (∀ j : ℕ, j < i → ∀ cj,
            (cumsum (sorted_weights values weights))[j]? = some cj → cj < q))) ∧
    computeWeightedQuantile [1, 2, 3, 4, 5] [1/5, 1/5, 1/5, 1/5, 1/5] (1/2) = some 3 := by
  constructor
  · intro values weights q
    refine ⟨sortPairs_perm _, sortPairs_sorted _, fun i hi => cumsum_getElem _ i hi, ?_⟩
    intro v hv
    rw [computeWeightedQuantile] at hv
    refine ⟨searchsorted (cumsum (sorted_weights values weights)) q, hv, ?_, ?_⟩
    · obtain ⟨hlt, -⟩ := List.getElem?_eq_some_iff.mp hv
      have hlt' : searchsorted (cumsum (sorted_weights values weights)) q
          < (cumsum (sorted_weights values weights)).length := by
        rw [cumsum_length, ← sorted_vals_length_eq]
        exact hlt
      have hci := List.getElem?_eq_getElem hlt'
      exact ⟨_, hci, searchsorted_ge _ q hci⟩
    · intro j hj cj hcj
      exact searchsorted_before_lt _ q hj hcj
  · norm_num [computeWeightedQuantile, sorted_vals, sorted_weights, sortPairs,
      List.insertionSort, List.orderedInsert, pairLe, cumsum, searchsorted]

/-- C1 witness: instantiating the first-index characterization at the
uniform example — the returned value 3 sits at an index whose cumulative
weight meets 1/2 while all earlier cumulative weights fall short. -/
theorem computeWeightedQuantile_follows_algorithm_witness :
    ∃ i : ℕ, (sorted_vals [1, 2, 3, 4, 5] [1/5, 1/5, 1/5, 1/5, 1/5])[i]? = some 3 ∧
      (∃ ci, (cumsum (sorted_weights [1, 2, 3, 4, 5] [1/5, 1/5, 1/5, 1/5, 1/5]))[i]?
        = some ci ∧ (1 : ℚ)/2 ≤ ci) ∧
      (∀ j : ℕ, j < i → ∀ cj,
        (cumsum (sorted_weights [1, 2, 3, 4, 5] [1/5, 1/5, 1/5, 1/5, 1/5]))[j]?
          = some cj → cj < 1/2) :=
  (computeWeightedQuantile_follows_algorithm.1 [1, 2, 3, 4, 5]
    [1/5, 1/5, 1/5, 1/5, 1/5] (1/2)).2.2.2 3
    computeWeightedQuantile_follows_algorithm.2

/-- C7: for fixed values and weights, computeWeightedQuantile is
monotonically non-decreasing in the quantile level — whenever q1 ≤ q2 and
both levels are in range (both lookups return a value), the value at q1 is
at most the value at q2. -/
theorem computeWeightedQuantile_mono (values weights : List ℚ) (q1 q2 v1 v2 : ℚ)
    (hq : q1 ≤ q2)
    (h1 : computeWeightedQuantile values weights q1 = some v1)
    (h2 : computeWeightedQuantile values weights q2 = some v2) :
    v1 ≤ v2 := by
  rw [computeWeightedQuantile] at h1 h2
  obtain ⟨hlt1, hget1⟩ := List.getElem?_eq_some_iff.mp h1
  obtain ⟨hlt2, hget2⟩ := List.getElem?_eq_some_iff.mp h2
  have hmono := searchsorted_mono (cumsum (sorted_weights values weights)) hq
  have hsorted := sorted_vals_sorted values weights
  have hg := hsorted.rel_get_of_le
    (a := ⟨searchsorted (cumsum (sorted_weights values weights)) q1, hlt1⟩)
    (b := ⟨searchsorted (cumsum (sorted_weights values weights)) q2, hlt2⟩)
    (Fin.mk_le_mk.mpr hmono)
  simpa [List.get_eq_getElem, hget1, hget2] using hg

/-- C7 witness: on [1, 2] with weights [1/2, 1/2], the quantile at level
1/4 is 1, at level 3/4 it is 2, and 1 ≤ 2 by monotonicity. -/
theorem computeWeightedQuantile_mono_witness :
    computeWeightedQuantile [1, 2] [1/2, 1/2] (1/4) = some 1 ∧
    computeWeightedQuantile [1, 2] [1/2, 1/2] (3/4) = some 2 ∧ (1 : ℚ) ≤ 2 := by
  have h1 : computeWeightedQuantile [1, 2] [1/2, 1/2] (1/4) = some 1 := by
    norm_num [computeWeightedQuantile, sorted_vals, sorted_weights, sortPairs,
      List.insertionSort, List.orderedInsert, pairLe, cumsum, searchsorted]
  have h2 : computeWeightedQuantile [1, 2] [1/2, 1/2] (3/4) = some 2 := by
    norm_num [computeWeightedQuantile, sorted_vals, sorted_weights, sortPairs,
      List.insertionSort, List.orderedInsert, pairLe, cumsum, searchsorted]
  exact ⟨h1, h2,
    computeWeightedQuantile_mono [1, 2] [1/2, 1/2] (1/4) (3/4) 1 2 (by norm_num) h1 h2⟩

/-- C2 counterexample: with weights [1/4, 1/4] (final cumulative weight
1/2, the float-rounding scenario the claim covers) and quantile level 1,
the search index is past the end of the array: the lookup fails with
`none` instead of being clamped to return the maximum value 2. -/
theorem computeWeightedQuantile_no_clamp_cex :
    computeWeightedQuantile [1, 2] [1/4, 1/4] 1 = none ∧
    computeWeightedQuantile [1, 2] [1/4, 1/4] 1 ≠ some 2 := by
  have h : computeWeightedQuantile [1, 2] [1/4, 1/4] 1 = none := by
    norm_num [computeWeightedQuantile, sorted_vals, sorted_weights, sortPairs,
      List.insertionSort, List.orderedInsert, pairLe, cumsum, searchsorted]
  refine ⟨h, ?_⟩
  rw [h]
  exact fun hc => Option.noConfusion hc

/-- C2 (amended): a quantile level at most the smallest cumulative weight
returns the minimum value; with strictly positive weights summing exactly
to 1, level 1 still returns the maximum value; but a level exceeding the
final cumulative weight (as when the float sum falls slightly below the
level) is NOT clamped — the search index is out of range and the lookup
fails with `none`. -/
theorem computeWeightedQuantile_edge_cases :
    ∀ (values weights : List ℚ) (q : ℚ),
      (values ≠ [] → values.length = weights.length →
        (∃ c0, (cumsum (sorted_weights values weights))[0]? = some c0 ∧ q ≤ c0) →
        ∃ v, computeWeightedQuantile values weights q = some v ∧ v ∈ values ∧
          ∀ x ∈ values, v ≤ x) ∧
      ((∀ w ∈ weights, 0 < w) → npSum weights = 1 → values ≠ [] →
        values.length = weights.length →
        ∃ v, computeWeightedQuantile values weights 1 = some v ∧ v ∈ values ∧
          ∀ x ∈ values, x ≤ v) ∧
      ((∀ w ∈ weights, 0 ≤ w) → values.length = weights.length →
        npSum weights < q →
        computeWeightedQuantile values weights q = none) := by
  intro values weights q
  refine ⟨?_, ?_, ?_⟩
  · -- minimum case
    intro hne hlen hex
    obtain ⟨c0, hc0, hq⟩ := hex
    have hss : searchsorted (cumsum (sorted_weights values weights)) q = 0 :=
      Nat.le_zero.mp (searchsorted_le_of_ge _ q hc0 hq)
    have hvlen : (sorted_vals values weights).length = values.length :=
      (sorted_vals_perm values weights hlen).length_eq
    have hpos : 0 < (sorted_vals values weights).length := by
      rw [hvlen]
      cases values with
      | nil => exact absurd rfl hne
      | cons _ _ => simp
    have hres : computeWeightedQuantile values weights q
        = some ((sorted_vals values weights).get ⟨0, hpos⟩) := by
      rw [computeWeightedQuantile, hss]
      simp [List.getElem?_eq_getElem hpos, List.get_eq_getElem]
    refine ⟨_, hres,
      (sorted_vals_perm values weights hlen).subset (List.get_mem _ _ _), ?_⟩
    intro x hx
    have hx' : x ∈ sorted_vals values weights :=
      ((sorted_vals_perm values weights hlen).mem_iff).mpr hx
    obtain ⟨i, hi⟩ := List.mem_iff_get.mp hx'
    have hrel := (sorted_vals_sorted values weights).rel_get_of_le
      (a := ⟨0, hpos⟩) (b := i) (by simp [Fin.le_def])
    rwa [hi] at hrel
  · -- maximum case at level 1 with exactly normalized positive weights
    intro hwpos hsum hne hlen
    have hswperm := sorted_weights_perm values weights hlen
    have hswsum : (sorted_weights values weights).sum = 1 := by
      rw [hswperm.sum_eq, ← npSum_eq_sum]
      exact hsum
    have hswpos : ∀ w ∈ sorted_weights values weights, 0 < w :=
      fun w hw => hwpos w (hswperm.subset hw)
    have hvlen : (sorted_vals values weights).length = values.length :=
      (sorted_vals_perm values weights hlen).length_eq
    have hswlen : (sorted_weights values weights).length = values.length := by
      rw [← sorted_vals_length_eq]
      exact hvlen
    have hn : 1 ≤ values.length := by
      cases values with
      | nil => exact absurd rfl hne
      | cons _ _ => simp
    have hclen : (cumsum (sorted_weights values weights)).length = values.length := by
      rw [cumsum_length, hswlen]
    have hlast : (cumsum (sorted_weights values weights))[values.length - 1]?
        = some 1 := by
      have h1 := cumsum_getElem (sorted_weights values weights) (values.length - 1)
        (by rw [hswlen]; omega)
      rw [h1]
      congr 1
      have h2 : values.length - 1 + 1 = values.length := by omega
      rw [h2, ← hswlen, List.take_length, hswsum]
    have hupper : searchsorted (cumsum (sorted_weights values weights)) 1
        ≤ values.length - 1 :=
      searchsorted_le_of_ge _ 1 hlast le_rfl
    have hlower : values.length - 1
        ≤ searchsorted (cumsum (sorted_weights values weights)) 1 := by
      apply le_searchsorted _ 1 (by omega)
      intro j hj cj hcj
      have hjlt : j < (sorted_weights values weights).length := by omega
      have h2 := cumsum_getElem (sorted_weights values weights) j hjlt
      rw [h2] at hcj
      have hcj' : cj = ((sorted_weights values weights).take (j + 1)).sum :=
        (Option.some_inj.mp hcj).symm
      rw [hcj', ← hswsum]
      exact take_sum_lt_sum (sorted_weights values weights) (j + 1) (by omega) hswpos
    have heq : searchsorted (cumsum (sorted_weights values weights)) 1
        = values.length - 1 := le_antisymm hupper hlower
    have hvlt : values.length - 1 < (sorted_vals values weights).length := by
      rw [hvlen]
      omega
    have hres : computeWeightedQuantile values weights 1
        = some ((sorted_vals values weights).get ⟨values.length - 1, hvlt⟩) := by
      rw [computeWeightedQuantile, heq]
      simp [List.getElem?_eq_getElem hvlt, List.get_eq_getElem]
    refine ⟨_, hres,
      (sorted_vals_perm values weights hlen).subset (List.get_mem _ _ _), ?_⟩
    intro x hx
    have hx' : x ∈ sorted_vals values weights :=
      ((sorted_vals_perm values weights hlen).mem_iff).mpr hx
    obtain ⟨i, hi⟩ := List.mem_iff_get.mp hx'
    have hile : i ≤ (⟨values.length - 1, hvlt⟩ : Fin (sorted_vals values weights).length) := by
      have h := i.isLt
      simp only [Fin.le_def]
      omega
    have hrel := (sorted_vals_sorted values weights).rel_get_of_le
      (a := i) (b := ⟨values.length - 1, hvlt⟩) hile
    rwa [hi] at hrel
  · -- level beyond the final cumulative weight: out-of-range, no clamping
    intro hwnn hlen hlt
    have hswperm := sorted_weights_perm values weights hlen
    have hswnn : ∀ w ∈ sorted_weights values weights, 0 ≤ w :=
      fun w hw => hwnn w (hswperm.subset hw)
    have hsum' : (sorted_weights values weights).sum = weights.sum := hswperm.sum_eq
    have hallc : ∀ x ∈ cumsum (sorted_weights values weights), x < q := by
      intro x hx
      obtain ⟨i, hi⟩ := List.mem_iff_get.mp hx
      have hilt : i.val < (sorted_weights values weights).length := by
        have h := i.isLt
        have h2 := cumsum_length (sorted_weights values weights)
        omega
      have h2 := cumsum_getElem (sorted_weights values weights) i.val hilt
      have h3 : (cumsum (sorted_weights values weights))[i.val]? = some x := by
        rw [← hi]
        simp [List.getElem?_eq_getElem i.isLt, List.get_eq_getElem]
      rw [h2] at h3
      have hx' : x = ((sorted_weights values weights).take (i.val + 1)).sum :=
        (Option.some_inj.mp h3).symm
      have hle := take_sum_le_sum (sorted_weights values weights) (i.val + 1) hswnn
      rw [npSum_eq_sum] at hlt
      rw [hx']
      calc ((sorted_weights values weights).take (i.val + 1)).sum
        ≤ (sorted_weights values weights).sum := hle
        _ = weights.sum := hsum'
        _ < q := hlt
    have hss := searchsorted_eq_length _ q hallc
    rw [computeWeightedQuantile, hss]
    apply List.getElem?_eq_none
    rw [cumsum_length]
    exact le_of_eq (sorted_vals_length_eq values weights)

/-- C2 witness: on values [3, 1, 2] with uniform weights 1/4, level 1/8
returns the minimum 1, while level 2 (past the total cumulative weight
3/4) fails with `none`. -/
theorem computeWeightedQuantile_edge_cases_witness :
    (∃ v, computeWeightedQuantile [3, 1, 2] [1/4, 1/4, 1/4] (1/8) = some v ∧
      v ∈ ([3, 1, 2] : List ℚ) ∧ ∀ x ∈ ([3, 1, 2] : List ℚ), v ≤ x) ∧
    computeWeightedQuantile [3, 1, 2] [1/4, 1/4, 1/4] 2 = none := by
  constructor
  · exact (computeWeightedQuantile_edge_cases [3, 1, 2] [1/4, 1/4, 1/4] (1/8)).1
      (by simp) (by simp)
      (by
        refine ⟨1/4, ?_, by norm_num⟩
        norm_num [sorted_weights, sortPairs, List.insertionSort, List.orderedInsert,
          pairLe, cumsum])
  · exact (computeWeightedQuantile_edge_cases [3, 1, 2] [1/4, 1/4, 1/4] 2).2.2
      (by
        intro w hw
        rcases List.mem_cons.mp hw with rfl | hw
        · norm_num
        · rcases List.mem_cons.mp hw with rfl | hw
          · norm_num
          · simp only [List.mem_singleton] at hw
            subst hw
            norm_num)
      (by simp) (by norm_num [npSum])

/-- C5 counterexample: on values [1,2,3], weights [0.2, 0.3, 0.5] and mean
2.2 the code returns 0.2·(1−2.2)² + 0.3·(2−2.2)² + 0.5·(3−2.2)² = 0.62,
not the 0.56 stated by the claim. -/
theorem computeWeightedVariance_instance_cex :
    computeWeightedVariance [1, 2, 3] [0.2, 0.3, 0.5] 2.2 ≠ 0.56 := by
  norm_num [computeWeightedVariance, computeWeightedMean, npSum]

/-- C5 (amended): for normalized non-negative weights the variance is the
population weighted second central moment `sum(weight_i * (value_i -
mean)^2)` (no Bessel correction) and the standard deviation is its square
root (non-negative, squaring back to the variance); in particular, for
values [1,2,3] with weights [0.2, 0.3, 0.5] and mean 2.2 the variance is
0.62. -/
theorem computeWeightedVariance_spec :
    (∀ (values weights : List ℚ) (mean : ℚ), weights.sum = 1 →
      (∀ w ∈ weights, 0 ≤ w) →
      computeWeightedVariance values weights mean
        = (List.zipWith (fun v w => w * (v - mean) ^ 2) values weights).sum ∧
      Real.sqrt ((computeWeightedVariance values weights mean : ℚ) : ℝ) ^ 2
        = ((computeWeightedVariance values weights mean : ℚ) : ℝ) ∧
      0 ≤ Real.sqrt ((computeWeightedVariance values weights mean : ℚ) : ℝ)) ∧
    computeWeightedVariance [1, 2, 3] [0.2, 0.3, 0.5] 2.2 = 0.62 := by
  constructor
  · intro values weights mean hsum hnn
    have hfg : (fun a b : ℚ => (a - mean) ^ 2 * b) = (fun v w : ℚ => w * (v - mean) ^ 2) := by
      funext a b
      ring
    have hvar : computeWeightedVariance values weights mean
        = (List.zipWith (fun v w => w * (v - mean) ^ 2) values weights).sum := by
      rw [computeWeightedVariance, computeWeightedMean]
      simp only [npSum_eq_sum]
      rw [hsum, div_one, List.zipWith_map_left, hfg]
    have h0 : 0 ≤ (List.zipWith (fun v w => w * (v - mean) ^ 2) values weights).sum :=
      sum_zipWith_sq_nonneg mean values weights hnn
    refine ⟨hvar, ?_, Real.sqrt_nonneg _⟩
    apply Real.sq_sqrt
    rw [hvar]
    exact_mod_cast h0
  · norm_num [computeWeightedVariance, computeWeightedMean, npSum]

/-- C5 witness: instantiating the second-central-moment identity at values
[1,2,3], weights [0.2, 0.3, 0.5], mean 2.2. -/
theorem computeWeightedVariance_spec_witness :
    computeWeightedVariance [1, 2, 3] [0.2, 0.3, 0.5] 2.2
      = (List.zipWith (fun v w => w * (v - (2.2 : ℚ)) ^ 2) [1, 2, 3] [0.2, 0.3, 0.5]).sum :=
  (computeWeightedVariance_spec.1 [1, 2, 3] [0.2, 0.3, 0.5] 2.2
    (by norm_num)
    (by
      intro w hw
      rcases List.mem_cons.mp hw with rfl | hw
      · norm_num
      · rcases List.mem_cons.mp hw with rfl | hw
        · norm_num
        · simp only [List.mem_singleton] at hw
          subst hw
          norm_num)).1

end PlotPosterior
